import Mathlib

/-!
Verification development for the CSV enrichment system
(`django-react-csv-enrichment-system`).

We shallowly embed the backend's pure core:

* `transformer/files/utils.py` — `FileUtils.__flatten_json`,
  `FileUtils.call_external_api` (its column-sanitization loop and lookup
  construction) and `FileUtils.enrich_content` (the row-wise merge);
* `transformer/files/services.py` — `FileService.get_preview_data` and the
  state-machine skeleton of `FileService.enrich_file` (persistent writes,
  compensating delete);
* `transformer/base/celery.py` — the `process_file_content` task with the
  Celery retry policy `max_retries=3, default_retry_delay=60`.

Python dictionaries are modelled as association lists in insertion order
with unique keys; `d[k] = v` is `dictSet` (update in place, else append),
which matches CPython dict assignment on every dict with unique keys —
and every dict the embedded code builds has unique keys.  Python `None`
is the value `JValue.jNull`; key absence is `Option.none` of a lookup.
Exceptions are modelled by explicit result values; failure points of
effectful steps are supplied by oracles.
-/

/-- Scalar values as they appear in parsed CSV rows / JSON lookup records.
`jNull` is Python's `None`. -/
inductive JValue where
  | jNull : JValue
  | jStr : String → JValue
  | jInt : Int → JValue
  | jBool : Bool → JValue
deriving DecidableEq, Repr

/-- Python's `str(value)` on the scalars we model. -/
def pyStr : JValue → String
  | JValue.jNull => "None"
  | JValue.jStr s => s
  | JValue.jInt n => toString n
  | JValue.jBool b => if b then "True" else "False"

/-- A Python `dict[str, value]`: an association list whose order is the
dict's insertion order (keys unique in every dict the code builds). -/
abbrev Jdict : Type := List (String × JValue)

/-- `d.get(k)` distinguishing absence (`none`) from a stored `None`
(`some jNull`): `dictGet d k = some v` iff `k` maps to `v`. -/
def dictGet (d : Jdict) (k : String) : Option JValue :=
  (d.find? (fun p => p.1 = k)).map (fun p => p.2)

/-- `d[k] = v`: update the entry in place if `k` is present (keeping its
position, as Python dicts do), otherwise append at the end. -/
def dictSet : Jdict → String → JValue → Jdict
  | [], k, v => [(k, v)]
  | p :: t, k, v => if p.1 = k then (k, v) :: t else p :: dictSet t k v

/-- The keys of a dict, in insertion order. -/
def dictKeys (d : Jdict) : List String :=
  d.map (fun p => p.1)

theorem dictGet_nil (k : String) : dictGet [] k = none := rfl

theorem dictGet_cons (p : String × JValue) (d : Jdict) (k : String) :
    dictGet (p :: d) k = if p.1 = k then some p.2 else dictGet d k := by
  by_cases h : p.1 = k <;> simp [dictGet, List.find?_cons, h]

theorem dictGet_dictSet_self (d : Jdict) (k : String) (v : JValue) :
    dictGet (dictSet d k v) k = some v := by
  induction d with
  | nil => simp [dictSet, dictGet, List.find?_cons]
  | cons p t ih =>
    by_cases h : p.1 = k
    · simp [dictSet, h, dictGet_cons]
    · simp [dictSet, h, dictGet_cons, ih]

theorem dictGet_dictSet_ne (d : Jdict) (k k' : String) (v : JValue)
    (h : k ≠ k') : dictGet (dictSet d k v) k' = dictGet d k' := by
  induction d with
  | nil => simp [dictSet, dictGet, List.find?_cons, h]
  | cons p t ih =>
    by_cases hp : p.1 = k
    · simp only [dictSet, hp, if_true]
      rw [dictGet_cons, dictGet_cons]
      simp [hp, h]
    · simp only [dictSet, hp, if_false]
      rw [dictGet_cons, dictGet_cons, ih]

theorem dictKeys_dictSet_mem (d : Jdict) (k : String) (v : JValue)
    (h : k ∈ dictKeys d) : dictKeys (dictSet d k v) = dictKeys d := by
  induction d with
  | nil => simp [dictKeys] at h
  | cons p t ih =>
    by_cases hp : p.1 = k
    · simp [dictSet, hp, dictKeys]
    · simp only [dictKeys, List.map_cons, List.mem_cons] at h
      rcases h with h | h
      · exact absurd h.symm hp
      · simp only [dictSet, hp, if_false, dictKeys, List.map_cons]
        have := ih (by simpa [dictKeys] using h)
        simp only [dictKeys] at this
        rw [this]

theorem dictKeys_dictSet_not_mem (d : Jdict) (k : String) (v : JValue)
    (h : ¬ k ∈ dictKeys d) : dictKeys (dictSet d k v) = dictKeys d ++ [k] := by
  induction d with
  | nil => simp [dictSet, dictKeys]
  | cons p t ih =>
    simp only [dictKeys, List.map_cons, List.mem_cons] at h
    push_neg at h
    have hp : ¬ p.1 = k := fun x => h.1 x.symm
    simp only [dictSet, hp, if_false, dictKeys, List.map_cons, List.cons_append]
    have := ih (by simpa [dictKeys] using h.2)
    simp only [dictKeys] at this
    rw [this]

theorem dictGet_eq_none_iff (d : Jdict) (k : String) :
    dictGet d k = none ↔ ¬ k ∈ dictKeys d := by
  induction d with
  | nil => simp [dictGet, dictKeys]
  | cons p t ih =>
    rw [dictGet_cons]
    by_cases hp : p.1 = k
    · simp [hp, dictKeys]
    · simp only [hp, if_false, ih, dictKeys, List.map_cons, List.mem_cons]
      constructor
      · intro hn h
        rcases h with h | h
        · exact hp h.symm
        · exact hn (by simpa [dictKeys] using h)
      · intro hn h
        exact hn (Or.inr (by simpa [dictKeys] using h))

theorem dictGet_isSome_iff (d : Jdict) (k : String) :
    (dictGet d k).isSome = true ↔ k ∈ dictKeys d := by
  rcases h : dictGet d k with _ | v
  · simpa using (dictGet_eq_none_iff d k).mp h
  · have : ¬ dictGet d k = none := by simp [h]
    rw [dictGet_eq_none_iff] at this
    simpa using not_not.mp this

/-- A Python value as fed to `FileUtils.__flatten_json`: either a scalar
leaf or a nested mapping (`dict` of key/value pairs in insertion order). -/
inductive PyVal where
  | scalar : JValue → PyVal
  | dict : List (String × PyVal) → PyVal

/-- Python `dict(items)` on a key/value pair list: first occurrence fixes
the position, the last assignment fixes the value (CPython semantics). -/
def listToDict (l : List (String × JValue)) : Jdict :=
  l.foldl (fun acc kv => dictSet acc kv.1 kv.2) []

/-- The `items` list built by `FileUtils.__flatten_json`: for each key, a
scalar contributes one pair under the joined key, a nested dict
contributes the pairs of the recursive `__flatten_json` call (itself a
dict, hence the inner `listToDict`). -/
def flatten_json_items : List (String × PyVal) → String → String → List (String × JValue)
  | [], _, _ => []
  | (k, PyVal.scalar x) :: rest, pk, sep =>
      ((if pk = "" then k else pk ++ sep ++ k), x) :: flatten_json_items rest pk sep
  | (k, PyVal.dict m) :: rest, pk, sep =>
      listToDict (flatten_json_items m (if pk = "" then k else pk ++ sep ++ k) sep)
        ++ flatten_json_items rest pk sep

/-- `FileUtils.__flatten_json(nested_json, parent_key, separator)`:
`dict(items)` over the accumulated items. -/
def flatten_json (j : List (String × PyVal)) (pk sep : String) : Jdict :=
  listToDict (flatten_json_items j pk sep)

/-- Strip a scalar wrapper (total; only used on scalar values). -/
def unwrapScalar : PyVal → JValue
  | PyVal.scalar x => x
  | PyVal.dict _ => JValue.jNull

theorem dictSet_not_mem_eq_append (d : Jdict) (k : String) (v : JValue)
    (h : ¬ k ∈ dictKeys d) : dictSet d k v = d ++ [(k, v)] := by
  induction d with
  | nil => simp [dictSet]
  | cons p t ih =>
    simp only [dictKeys, List.map_cons, List.mem_cons] at h
    push_neg at h
    have hp : ¬ p.1 = k := fun x => h.1 x.symm
    simp only [dictSet, hp, if_false, List.cons_append]
    rw [ih (by simpa [dictKeys] using h.2)]

theorem dictKeys_nodup_dictSet (d : Jdict) (k : String) (v : JValue)
    (h : (dictKeys d).Nodup) : (dictKeys (dictSet d k v)).Nodup := by
  by_cases hm : k ∈ dictKeys d
  · rw [dictKeys_dictSet_mem d k v hm]; exact h
  · rw [dictKeys_dictSet_not_mem d k v hm]
    simpa [List.nodup_append] using ⟨h, hm⟩

theorem foldl_dictSet_nodup (l : List (String × JValue)) (acc : Jdict)
    (h : (dictKeys acc).Nodup) :
    (dictKeys (l.foldl (fun acc kv => dictSet acc kv.1 kv.2) acc)).Nodup := by
  induction l generalizing acc with
  | nil => simpa using h
  | cons kv t ih =>
    simp only [List.foldl_cons]
    exact ih _ (dictKeys_nodup_dictSet _ _ _ h)

theorem listToDict_keys_nodup (l : List (String × JValue)) :
    (dictKeys (listToDict l)).Nodup := by
  have : (dictKeys ([] : Jdict)).Nodup := by simp [dictKeys]
  exact foldl_dictSet_nodup l [] this

theorem foldl_dictSet_append (l : List (String × JValue)) (acc : Jdict)
    (hdisj : ∀ k ∈ l.map (fun p => p.1), ¬ k ∈ dictKeys acc)
    (hnodup : (l.map (fun p => p.1)).Nodup) :
    l.foldl (fun acc kv => dictSet acc kv.1 kv.2) acc = acc ++ l := by
  induction l generalizing acc with
  | nil => simp
  | cons kv t ih =>
    simp only [List.foldl_cons]
    have h1 : ¬ kv.1 ∈ dictKeys acc := hdisj kv.1 (by simp)
    rw [dictSet_not_mem_eq_append acc kv.1 kv.2 h1]
    simp only [List.map_cons, List.nodup_cons] at hnodup
    rw [ih (acc ++ [kv]) ?_ hnodup.2]
    · simp
    · intro k hk
      simp only [dictKeys, List.map_append, List.mem_append]
      push_neg
      constructor
      · exact hdisj k (by simp [hk])
      · simp only [List.map_cons, List.map_nil, List.mem_singleton]
        intro hkk
        exact hnodup.1 (hkk ▸ hk)

theorem listToDict_eq_self (l : List (String × JValue))
    (hnodup : (l.map (fun p => p.1)).Nodup) : listToDict l = l := by
  unfold listToDict
  rw [foldl_dictSet_append l [] (by simp [dictKeys]) hnodup]
  simp

theorem flatten_json_items_of_flat (j : List (String × PyVal)) (sep : String)
    (hflat : ∀ p ∈ j, ∃ x, p.2 = PyVal.scalar x) :
    flatten_json_items j "" sep = j.map (fun p => (p.1, unwrapScalar p.2)) := by
  induction j with
  | nil => simp [flatten_json_items]
  | cons p t ih =>
    obtain ⟨x, hx⟩ := hflat p (by simp)
    obtain ⟨k, v⟩ := p
    simp only at hx
    subst hx
    simp [flatten_json_items, unwrapScalar, ih (fun q hq => hflat q (by simp [hq]))]

/-- Python's whitespace test used by `str.strip()`. -/
def isPySpace (c : Char) : Bool := c.isWhitespace

/-- `str.strip()` on the underlying character list: drop whitespace from
the front, then from the back. -/
def stripChars (l : List Char) : List Char :=
  List.rdropWhile isPySpace (List.dropWhile isPySpace l)

/-- Python `str.strip()` (the sanitizer in `FileUtils.call_external_api`). -/
def pyStrip (s : String) : String := String.mk (stripChars s.data)

theorem dropWhile_stripChars (l : List Char) :
    List.dropWhile isPySpace (stripChars l) = stripChars l := by
  unfold stripChars
  set m := List.dropWhile isPySpace l with hm
  have hmm : List.dropWhile isPySpace m = m := List.dropWhile_idempotent _ _
  obtain ⟨t, ht⟩ := List.rdropWhile_prefix isPySpace m
  rcases hr : List.rdropWhile isPySpace m with _ | ⟨c, cs⟩
  · simp
  · rw [hr] at ht
    have hc : ¬ isPySpace c = true := by
      rw [← ht] at hmm
      intro hpc
      rw [List.cons_append, List.dropWhile_cons, if_pos hpc] at hmm
      have hlen := congrArg List.length hmm
      have hle := (List.dropWhile_suffix (l := cs ++ t) isPySpace).length_le
      simp only [List.length_cons, List.length_append] at hlen hle
      omega
    simp [List.dropWhile_cons, hc]

theorem stripChars_idempotent (l : List Char) :
    stripChars (stripChars l) = stripChars l := by
  conv_lhs => rw [stripChars, dropWhile_stripChars]
  unfold stripChars
  exact List.rdropWhile_idempotent _ _

theorem pyStrip_idempotent (s : String) : pyStrip (pyStrip s) = pyStrip s := by
  unfold pyStrip
  simp [stripChars_idempotent]

/-- Python `set.add` on a duplicate-free list kept in first-insertion
order (a determinization of the unordered `set`). -/
def setAdd (s : List String) (k : String) : List String :=
  if k ∈ s then s else s ++ [k]

/-- One iteration of the column-collection loop of
`FileUtils.call_external_api`: skip the matching key when it would
duplicate the join column, sanitize with `strip()`, keep only non-empty
sanitized names. -/
def colStep (api_key file_key : String) (file_columns : List String)
    (acc : List String) (kv : String × JValue) : List String :=
  if kv.1 = api_key ∧ file_key ∈ file_columns then acc
  else if pyStrip kv.1 = "" then acc
  else setAdd acc (pyStrip kv.1)

/-- The `api_columns` set built by `FileUtils.call_external_api` from the
flattened API records. -/
def api_columns_of (api_key file_key : String) (file_columns : List String)
    (records : List Jdict) : List String :=
  records.foldl (fun acc item => item.foldl (colStep api_key file_key file_columns) acc) []

/-- `file_columns | api_columns` as a duplicate-free list (a
determinization of the unordered set union in `enrich_content`). -/
def all_columns_of (file_columns api_cols : List String) : List String :=
  api_cols.foldl setAdd file_columns

/-- `kv` makes the sanitized name `c` enter `api_columns`. -/
def contributes (api_key file_key : String) (file_columns : List String)
    (kv : String × JValue) (c : String) : Prop :=
  ¬ (kv.1 = api_key ∧ file_key ∈ file_columns) ∧ ¬ pyStrip kv.1 = "" ∧ pyStrip kv.1 = c

theorem mem_setAdd (s : List String) (k c : String) :
    c ∈ setAdd s k ↔ c ∈ s ∨ c = k := by
  unfold setAdd
  by_cases h : k ∈ s
  · simp only [h, if_true]
    constructor
    · exact Or.inl
    · rintro (hc | rfl)
      · exact hc
      · exact h
  · simp [h]

theorem nodup_setAdd (s : List String) (k : String) (h : s.Nodup) :
    (setAdd s k).Nodup := by
  unfold setAdd
  by_cases hk : k ∈ s
  · simpa [hk] using h
  · rw [if_neg hk, List.nodup_append]
    refine ⟨h, List.nodup_singleton k, ?_⟩
    intro a ha hak
    simp only [List.mem_singleton] at hak
    exact hk (hak ▸ ha)

theorem mem_colStep (a f c : String) (cols : List String) (acc : List String)
    (kv : String × JValue) :
    c ∈ colStep a f cols acc kv ↔ c ∈ acc ∨ contributes a f cols kv c := by
  unfold colStep
  by_cases h1 : kv.1 = a ∧ f ∈ cols
  · rw [if_pos h1]
    constructor
    · exact Or.inl
    · rintro (h | ⟨hna, _, _⟩)
      · exact h
      · exact absurd h1 hna
  · rw [if_neg h1]
    by_cases h2 : pyStrip kv.1 = ""
    · rw [if_pos h2]
      constructor
      · exact Or.inl
      · rintro (h | ⟨_, hne, _⟩)
        · exact h
        · exact absurd h2 hne
    · rw [if_neg h2, mem_setAdd]
      constructor
      · rintro (h | h)
        · exact Or.inl h
        · exact Or.inr ⟨h1, h2, h.symm⟩
      · rintro (h | ⟨_, _, h⟩)
        · exact Or.inl h
        · exact Or.inr h.symm

theorem nodup_colStep (a f : String) (cols : List String) (acc : List String)
    (kv : String × JValue) (h : acc.Nodup) : (colStep a f cols acc kv).Nodup := by
  unfold colStep
  split
  · exact h
  · split
    · exact h
    · exact nodup_setAdd _ _ h

theorem mem_foldl_colStep (a f c : String) (cols : List String) (item : Jdict)
    (acc : List String) :
    c ∈ item.foldl (colStep a f cols) acc ↔
      c ∈ acc ∨ ∃ kv ∈ item, contributes a f cols kv c := by
  induction item generalizing acc with
  | nil => simp
  | cons kv t ih =>
    simp only [List.foldl_cons, ih, mem_colStep, List.mem_cons]
    constructor
    · rintro ((h | h) | ⟨x, hx, hc⟩)
      · exact Or.inl h
      · exact Or.inr ⟨kv, Or.inl rfl, h⟩
      · exact Or.inr ⟨x, Or.inr hx, hc⟩
    · rintro (h | ⟨x, (rfl | hx), hc⟩)
      · exact Or.inl (Or.inl h)
      · exact Or.inl (Or.inr hc)
      · exact Or.inr ⟨x, hx, hc⟩

theorem nodup_foldl_colStep (a f : String) (cols : List String) (item : Jdict)
    (acc : List String) (h : acc.Nodup) :
    (item.foldl (colStep a f cols) acc).Nodup := by
  induction item generalizing acc with
  | nil => simpa using h
  | cons kv t ih =>
    simp only [List.foldl_cons]
    exact ih _ (nodup_colStep a f cols acc kv h)

theorem mem_api_columns_iff (a f c : String) (cols : List String)
    (records : List Jdict) :
    c ∈ api_columns_of a f cols records ↔
      ∃ item ∈ records, ∃ kv ∈ item, contributes a f cols kv c := by
  unfold api_columns_of
  suffices h : ∀ acc : List String,
      c ∈ records.foldl (fun acc item => item.foldl (colStep a f cols) acc) acc ↔
        c ∈ acc ∨ ∃ item ∈ records, ∃ kv ∈ item, contributes a f cols kv c by
    simpa using h []
  intro acc
  induction records generalizing acc with
  | nil => simp
  | cons item t ih =>
    simp only [List.foldl_cons, ih, mem_foldl_colStep, List.mem_cons]
    constructor
    · rintro ((h | h) | ⟨x, hx, hc⟩)
      · exact Or.inl h
      · exact Or.inr ⟨item, Or.inl rfl, h⟩
      · exact Or.inr ⟨x, Or.inr hx, hc⟩
    · rintro (h | ⟨x, (rfl | hx), hc⟩)
      · exact Or.inl (Or.inl h)
      · exact Or.inl (Or.inr hc)
      · exact Or.inr ⟨x, hx, hc⟩

theorem nodup_api_columns (a f : String) (cols : List String)
    (records : List Jdict) : (api_columns_of a f cols records).Nodup := by
  unfold api_columns_of
  suffices h : ∀ acc : List String, acc.Nodup →
      (records.foldl (fun acc item => item.foldl (colStep a f cols) acc) acc).Nodup from
    h [] List.nodup_nil
  intro acc hacc
  induction records generalizing acc with
  | nil => simpa using hacc
  | cons item t ih =>
    simp only [List.foldl_cons]
    exact ih _ (nodup_foldl_colStep a f cols item acc hacc)

theorem mem_all_columns_iff (c : String) (cols api : List String) :
    c ∈ all_columns_of cols api ↔ c ∈ cols ∨ c ∈ api := by
  unfold all_columns_of
  induction api generalizing cols with
  | nil => simp
  | cons k t ih =>
    simp only [List.foldl_cons, ih, mem_setAdd, List.mem_cons]
    constructor
    · rintro ((h | h) | h)
      · exact Or.inl h
      · exact Or.inr (Or.inl h)
      · exact Or.inr (Or.inr h)
    · rintro (h | (h | h))
      · exact Or.inl (Or.inl h)
      · exact Or.inl (Or.inr h)
      · exact Or.inr h

theorem nodup_all_columns (cols api : List String) (h : cols.Nodup) :
    (all_columns_of cols api).Nodup := by
  unfold all_columns_of
  induction api generalizing cols with
  | nil => simpa using h
  | cons k t ih =>
    simp only [List.foldl_cons]
    exact ih _ (nodup_setAdd cols k h)

/-- `{col: None for col in all_columns}` — the fresh enriched row. -/
def initRow (allCols : List String) : Jdict :=
  allCols.map (fun c => (c, JValue.jNull))

/-- The source-copy loop of `FileUtils.enrich_content`:
`for col in file_columns: enriched_row[col] = row.get(col)`. -/
def copySource (fileCols : List String) (row er : Jdict) : Jdict :=
  fileCols.foldl (fun er c => dictSet er c ((dictGet row c).getD JValue.jNull)) er

/-- The overlay loop of `FileUtils.enrich_content`:
`for col in api_columns: if col in api_row: enriched_row[col] = api_row[col]`. -/
def overlayApi (apiCols : List String) (apiRow er : Jdict) : Jdict :=
  apiCols.foldl
    (fun er c =>
      match dictGet apiRow c with
      | some v => dictSet er c v
      | none => er)
    er

/-- `api_lookup` probe: `str(row.get(file_key, ""))`, then dict lookup. -/
def lookupMatch (lookup : List (String × Jdict)) (fileKey : String)
    (row : Jdict) : Option Jdict :=
  (lookup.find?
      (fun p => p.1 = pyStr ((dictGet row fileKey).getD (JValue.jStr "")))).map
    (fun p => p.2)

/-- One iteration of the merge loop of `FileUtils.enrich_content`. -/
def enrichRow (allCols fileCols apiCols : List String) (fileKey : String)
    (lookup : List (String × Jdict)) (row : Jdict) : Jdict :=
  match lookupMatch lookup fileKey row with
  | some apiRow => overlayApi apiCols apiRow (copySource fileCols row (initRow allCols))
  | none => copySource fileCols row (initRow allCols)

/-- The full merge of `FileUtils.enrich_content` over the file content. -/
def enrich_content_rows (allCols fileCols apiCols : List String) (fileKey : String)
    (lookup : List (String × Jdict)) (fileContent : List Jdict) : List Jdict :=
  fileContent.map (enrichRow allCols fileCols apiCols fileKey lookup)

/-- Value a merged row should carry for a source-only column (or null). -/
def sourceCell (fileCols : List String) (row : Jdict) (c : String) : JValue :=
  if c ∈ fileCols then (dictGet row c).getD JValue.jNull else JValue.jNull

/-- Cell-level specification of the merge: null-initialized, source values
copied, matched lookup values overlaid on the lookup columns present in
the matched record. -/
def expectedCell (fileCols apiCols : List String) (fileKey : String)
    (lookup : List (String × Jdict)) (row : Jdict) (c : String) : JValue :=
  match lookupMatch lookup fileKey row with
  | some apiRow =>
      if c ∈ apiCols then
        match dictGet apiRow c with
        | some v => v
        | none => sourceCell fileCols row c
      else sourceCell fileCols row c
  | none => sourceCell fileCols row c

theorem dictGet_initRow (allCols : List String) (c : String) :
    dictGet (initRow allCols) c =
      if c ∈ allCols then some JValue.jNull else none := by
  induction allCols with
  | nil => simp [initRow, dictGet]
  | cons a t ih =>
    simp only [initRow, List.map_cons]
    rw [dictGet_cons]
    by_cases h : a = c
    · simp [h]
    · simp only [h, if_false]
      rw [show List.map (fun c => (c, JValue.jNull)) t = initRow t from rfl, ih]
      by_cases hc : c ∈ t
      · simp [hc, h]
      · have : ¬ c ∈ a :: t := by
          simp only [List.mem_cons]
          push_neg
          exact ⟨fun x => h x.symm, hc⟩
        simp [hc, this]

theorem dictGet_copySource (fileCols : List String) (row er : Jdict) (c : String) :
    dictGet (copySource fileCols row er) c =
      if c ∈ fileCols then some ((dictGet row c).getD JValue.jNull)
      else dictGet er c := by
  induction fileCols generalizing er with
  | nil => simp [copySource]
  | cons f t ih =>
    simp only [copySource, List.foldl_cons]
    rw [show List.foldl (fun er c => dictSet er c ((dictGet row c).getD JValue.jNull))
          (dictSet er f ((dictGet row f).getD JValue.jNull)) t
        = copySource t row (dictSet er f ((dictGet row f).getD JValue.jNull)) from rfl, ih]
    by_cases hct : c ∈ t
    · simp [hct, List.mem_cons]
    · by_cases hcf : c = f
      · subst hcf
        simp [hct, dictGet_dictSet_self]
      · have hnc : ¬ c ∈ f :: t := by
          simp only [List.mem_cons]
          push_neg
          exact ⟨hcf, hct⟩
        rw [dictGet_dictSet_ne er f c _ (fun x => hcf x.symm)]
        simp [hct, hnc]

theorem dictGet_overlayApi (apiCols : List String) (apiRow er : Jdict) (c : String) :
    dictGet (overlayApi apiCols apiRow er) c =
      if c ∈ apiCols ∧ (dictGet apiRow c).isSome then dictGet apiRow c
      else dictGet er c := by
  induction apiCols generalizing er with
  | nil => simp [overlayApi]
  | cons a t ih =>
    simp only [overlayApi, List.foldl_cons]
    rcases ha : dictGet apiRow a with _ | v
    · simp only []
      rw [show List.foldl
            (fun er c => match dictGet apiRow c with | some v => dictSet er c v | none => er)
            er t = overlayApi t apiRow er from rfl, ih]
      by_cases hct : c ∈ t
      · simp [hct, List.mem_cons]
      · by_cases hca : c = a
        · subst hca
          simp [ha, hct]
        · have : ¬ c ∈ a :: t := by
            simp only [List.mem_cons]
            push_neg
            exact ⟨hca, hct⟩
          simp [hct, this]
    · simp only []
      rw [show List.foldl
            (fun er c => match dictGet apiRow c with | some v => dictSet er c v | none => er)
            (dictSet er a v) t = overlayApi t apiRow (dictSet er a v) from rfl, ih]
      by_cases hct : c ∈ t
      · by_cases hs : (dictGet apiRow c).isSome = true
        · simp [hct, hs, List.mem_cons]
        · have hca : ¬ c = a := by
            intro h
            rw [h, ha] at hs
            simp at hs
          rw [dictGet_dictSet_ne er a c _ (fun x => hca x.symm)]
          simp [hct, hs, List.mem_cons]
      · by_cases hca : c = a
        · subst hca
          simp [ha, hct, dictGet_dictSet_self]
        · have hnc : ¬ c ∈ a :: t := by
            simp only [List.mem_cons]
            push_neg
            exact ⟨hca, hct⟩
          rw [dictGet_dictSet_ne er a c _ (fun x => hca x.symm)]
          simp [hct, hnc]

theorem dictKeys_initRow (allCols : List String) :
    dictKeys (initRow allCols) = allCols := by
  induction allCols with
  | nil => rfl
  | cons a t ih => simp only [initRow, dictKeys, List.map_cons, List.map_map] at *; rw [ih]

theorem dictKeys_copySource (fileCols : List String) (row er : Jdict)
    (h : ∀ c ∈ fileCols, c ∈ dictKeys er) :
    dictKeys (copySource fileCols row er) = dictKeys er := by
  induction fileCols generalizing er with
  | nil => rfl
  | cons f t ih =>
    simp only [copySource, List.foldl_cons]
    have hkeys : dictKeys (dictSet er f ((dictGet row f).getD JValue.jNull)) = dictKeys er :=
      dictKeys_dictSet_mem er f _ (h f (by simp))
    rw [show List.foldl (fun er c => dictSet er c ((dictGet row c).getD JValue.jNull))
          (dictSet er f ((dictGet row f).getD JValue.jNull)) t
        = copySource t row (dictSet er f ((dictGet row f).getD JValue.jNull)) from rfl]
    have := ih (dictSet er f ((dictGet row f).getD JValue.jNull))
      (fun c hc => by rw [hkeys]; exact h c (by simp [hc]))
    rw [this, hkeys]

theorem dictKeys_overlayApi (apiCols : List String) (apiRow er : Jdict)
    (h : ∀ c ∈ apiCols, c ∈ dictKeys er) :
    dictKeys (overlayApi apiCols apiRow er) = dictKeys er := by
  induction apiCols generalizing er with
  | nil => rfl
  | cons a t ih =>
    simp only [overlayApi, List.foldl_cons]
    rcases ha : dictGet apiRow a with _ | v
    · rw [show List.foldl
            (fun er c => match dictGet apiRow c with | some v => dictSet er c v | none => er)
            er t = overlayApi t apiRow er from rfl]
      exact ih er (fun c hc => h c (by simp [hc]))
    · have hkeys : dictKeys (dictSet er a v) = dictKeys er :=
        dictKeys_dictSet_mem er a v (h a (by simp))
      rw [show List.foldl
            (fun er c => match dictGet apiRow c with | some v => dictSet er c v | none => er)
            (dictSet er a v) t = overlayApi t apiRow (dictSet er a v) from rfl]
      have := ih (dictSet er a v) (fun c hc => by rw [hkeys]; exact h c (by simp [hc]))
      rw [this, hkeys]

theorem dictKeys_enrichRow (allCols fileCols apiCols : List String) (fileKey : String)
    (lookup : List (String × Jdict)) (row : Jdict)
    (hfc : ∀ c ∈ fileCols, c ∈ allCols) (hac : ∀ c ∈ apiCols, c ∈ allCols) :
    dictKeys (enrichRow allCols fileCols apiCols fileKey lookup row) = allCols := by
  unfold enrichRow
  have hcs : dictKeys (copySource fileCols row (initRow allCols)) = allCols := by
    rw [dictKeys_copySource _ _ _
      (fun c hc => by rw [dictKeys_initRow]; exact hfc c hc), dictKeys_initRow]
  rcases lookupMatch lookup fileKey row with _ | apiRow
  · exact hcs
  · simp only []
    rw [dictKeys_overlayApi _ _ _ (fun c hc => by rw [hcs]; exact hac c hc), hcs]

theorem dictGet_enrichRow (allCols fileCols apiCols : List String) (fileKey : String)
    (lookup : List (String × Jdict)) (row : Jdict) (c : String) (hc : c ∈ allCols) :
    dictGet (enrichRow allCols fileCols apiCols fileKey lookup row) c =
      some (expectedCell fileCols apiCols fileKey lookup row c) := by
  unfold enrichRow expectedCell
  have hbase : dictGet (copySource fileCols row (initRow allCols)) c =
      some (sourceCell fileCols row c) := by
    rw [dictGet_copySource, dictGet_initRow]
    unfold sourceCell
    by_cases h : c ∈ fileCols
    · simp [h]
    · simp [h, hc]
  rcases lookupMatch lookup fileKey row with _ | apiRow
  · exact hbase
  · simp only []
    rw [dictGet_overlayApi]
    by_cases h1 : c ∈ apiCols
    · rcases hv : dictGet apiRow c with _ | v
      · simp [h1, hv, hbase]
      · simp [h1, hv]
    · simp [h1, hbase]

theorem expectedCell_none (fileCols apiCols : List String) (fileKey : String)
    (lookup : List (String × Jdict)) (row : Jdict) (c : String)
    (h : lookupMatch lookup fileKey row = none) :
    expectedCell fileCols apiCols fileKey lookup row c = sourceCell fileCols row c := by
  unfold expectedCell
  rw [h]

theorem expectedCell_some (fileCols apiCols : List String) (fileKey : String)
    (lookup : List (String × Jdict)) (row : Jdict) (c : String) (apiRow : Jdict)
    (h : lookupMatch lookup fileKey row = some apiRow) :
    expectedCell fileCols apiCols fileKey lookup row c =
      if c ∈ apiCols then
        match dictGet apiRow c with
        | some v => v
        | none => sourceCell fileCols row c
      else sourceCell fileCols row c := by
  unfold expectedCell
  rw [h]

/-- C3: for every source row set and lookup table, the row-wise merge of
`FileUtils.enrich_content` yields exactly one output row per source row,
in source order; every output row carries exactly the unioned columns;
every cell holds the null-initialized, source-copied, lookup-overlaid
value (`expectedCell`); and a row with no lookup match keeps null in
every lookup-only column. -/
theorem enrich_content_rowwise_merge
    (allCols fileCols apiCols : List String) (fileKey : String)
    (lookup : List (String × Jdict)) (fileContent : List Jdict)
    (hall : ∀ c, c ∈ allCols ↔ (c ∈ fileCols ∨ c ∈ apiCols)) :
    (enrich_content_rows allCols fileCols apiCols fileKey lookup fileContent).length
        = fileContent.length ∧
    (∀ i (hi : i < fileContent.length)
        (hi2 : i < (enrich_content_rows allCols fileCols apiCols fileKey lookup
          fileContent).length),
      (enrich_content_rows allCols fileCols apiCols fileKey lookup fileContent).get ⟨i, hi2⟩
        = enrichRow allCols fileCols apiCols fileKey lookup (fileContent.get ⟨i, hi⟩)) ∧
    (∀ row ∈ fileContent,
      dictKeys (enrichRow allCols fileCols apiCols fileKey lookup row) = allCols ∧
      (∀ c ∈ allCols,
        dictGet (enrichRow allCols fileCols apiCols fileKey lookup row) c
          = some (expectedCell fileCols apiCols fileKey lookup row c)) ∧
      (lookupMatch lookup fileKey row = none →
        ∀ c ∈ apiCols, ¬ c ∈ fileCols →
          dictGet (enrichRow allCols fileCols apiCols fileKey lookup row) c
            = some JValue.jNull)) := by
  have hfc : ∀ c ∈ fileCols, c ∈ allCols := fun c hc => (hall c).mpr (Or.inl hc)
  have hac : ∀ c ∈ apiCols, c ∈ allCols := fun c hc => (hall c).mpr (Or.inr hc)
  refine ⟨by simp [enrich_content_rows], ?_, ?_⟩
  · intro i hi hi2
    simp [enrich_content_rows]
  · intro row hrow
    refine ⟨dictKeys_enrichRow _ _ _ _ _ _ hfc hac,
      fun c hc => dictGet_enrichRow _ _ _ _ _ _ c hc, ?_⟩
    intro hnm c hc hcf
    rw [dictGet_enrichRow _ _ _ _ _ _ c (hac c hc)]
    unfold expectedCell
    rw [hnm]
    simp [sourceCell, hcf]

/-- Witness for C3, on the spec's merge-null-fill example: three source
rows joined on `id` against a two-entry lookup give three output rows;
the unmatched row keeps null in `name`; the matched row carries the
looked-up value. -/
theorem enrich_content_rowwise_merge_witness :
    (enrich_content_rows ["id", "qty", "name", "price"] ["id", "qty"] ["name", "price"]
        "id"
        [("1", [("id", JValue.jInt 1), ("name", JValue.jStr "A"),
            ("price", JValue.jStr "10.99")]),
         ("2", [("id", JValue.jInt 2), ("name", JValue.jStr "B"),
            ("price", JValue.jStr "20.50")])]
        [[("id", JValue.jInt 1), ("qty", JValue.jInt 5)],
         [("id", JValue.jInt 2), ("qty", JValue.jInt 3)],
         [("id", JValue.jInt 3), ("qty", JValue.jInt 2)]]).length = 3 ∧
    dictGet (enrichRow ["id", "qty", "name", "price"] ["id", "qty"] ["name", "price"]
        "id"
        [("1", [("id", JValue.jInt 1), ("name", JValue.jStr "A"),
            ("price", JValue.jStr "10.99")]),
         ("2", [("id", JValue.jInt 2), ("name", JValue.jStr "B"),
            ("price", JValue.jStr "20.50")])]
        [("id", JValue.jInt 3), ("qty", JValue.jInt 2)]) "name" = some JValue.jNull ∧
    dictGet (enrichRow ["id", "qty", "name", "price"] ["id", "qty"] ["name", "price"]
        "id"
        [("1", [("id", JValue.jInt 1), ("name", JValue.jStr "A"),
            ("price", JValue.jStr "10.99")]),
         ("2", [("id", JValue.jInt 2), ("name", JValue.jStr "B"),
            ("price", JValue.jStr "20.50")])]
        [("id", JValue.jInt 1), ("qty", JValue.jInt 5)]) "name"
      = some (JValue.jStr "A") := by
  have h := enrich_content_rowwise_merge
    ["id", "qty", "name", "price"] ["id", "qty"] ["name", "price"] "id"
    [("1", [("id", JValue.jInt 1), ("name", JValue.jStr "A"),
        ("price", JValue.jStr "10.99")]),
     ("2", [("id", JValue.jInt 2), ("name", JValue.jStr "B"),
        ("price", JValue.jStr "20.50")])]
    [[("id", JValue.jInt 1), ("qty", JValue.jInt 5)],
     [("id", JValue.jInt 2), ("qty", JValue.jInt 3)],
     [("id", JValue.jInt 3), ("qty", JValue.jInt 2)]]
    (by
      intro c
      simp only [List.mem_cons, List.not_mem_nil, or_false]
      tauto)
  refine ⟨h.1, ?_, ?_⟩
  · exact (h.2.2 [("id", JValue.jInt 3), ("qty", JValue.jInt 2)] (by decide)).2.2
      (by decide) "name" (by decide) (by decide)
  · exact ((h.2.2 [("id", JValue.jInt 1), ("qty", JValue.jInt 5)] (by decide)).2.1
      "name" (by decide)).trans (by decide)

/-- C9: flattening an already-flat mapping (unique keys, all leaf values)
returns it unchanged, leaf values untouched; and flatten composed with
itself equals flatten. -/
theorem flatten_json_idempotent :
    (∀ (j : List (String × PyVal)) (sep : String),
      (j.map (fun p => p.1)).Nodup →
      (∀ p ∈ j, ∃ x, p.2 = PyVal.scalar x) →
      flatten_json j "" sep = j.map (fun p => (p.1, unwrapScalar p.2))) ∧
    (∀ (j : List (String × PyVal)) (pk sep : String),
      flatten_json ((flatten_json j pk sep).map (fun p => (p.1, PyVal.scalar p.2))) "" sep
        = flatten_json j pk sep) := by
  have part1 : ∀ (j : List (String × PyVal)) (sep : String),
      (j.map (fun p => p.1)).Nodup →
      (∀ p ∈ j, ∃ x, p.2 = PyVal.scalar x) →
      flatten_json j "" sep = j.map (fun p => (p.1, unwrapScalar p.2)) := by
    intro j sep hnd hflat
    unfold flatten_json
    rw [flatten_json_items_of_flat j sep hflat]
    apply listToDict_eq_self
    simpa [List.map_map, Function.comp] using hnd
  have hcancel : ∀ l : Jdict,
      (l.map (fun p => (p.1, PyVal.scalar p.2))).map (fun p => (p.1, unwrapScalar p.2)) = l := by
    intro l
    induction l with
    | nil => rfl
    | cons p t ih =>
      simp only [List.map_cons]
      rw [ih]
      rfl
  refine ⟨part1, ?_⟩
  intro j pk sep
  rw [part1 _ sep ?_ ?_]
  · exact hcancel _
  · have : ((flatten_json j pk sep).map (fun p => (p.1, PyVal.scalar p.2))).map
        (fun p => p.1) = dictKeys (flatten_json j pk sep) := by
      simp [List.map_map, dictKeys]
    rw [this]
    exact listToDict_keys_nodup _
  · intro p hp
    simp only [List.mem_map] at hp
    obtain ⟨q, _, rfl⟩ := hp
    exact ⟨q.2, rfl⟩

/-- Witness for C9: a concrete already-flat mapping is returned verbatim
by the flatten transform. -/
theorem flatten_json_idempotent_witness :
    flatten_json [("a", PyVal.scalar (JValue.jInt 1)),
        ("b", PyVal.scalar (JValue.jStr "x"))] "" "_"
      = [("a", JValue.jInt 1), ("b", JValue.jStr "x")] := by
  have h := flatten_json_idempotent.1
    [("a", PyVal.scalar (JValue.jInt 1)), ("b", PyVal.scalar (JValue.jStr "x"))] "_"
    (by decide)
    (by
      rintro p hp
      rcases List.mem_cons.mp hp with rfl | hp2
      · exact ⟨JValue.jInt 1, rfl⟩
      · rcases List.mem_cons.mp hp2 with rfl | hp3
        · exact ⟨JValue.jStr "x", rfl⟩
        · cases hp3)
  exact h.trans rfl

/-- Spec-side reading of C6 exactly as stated: the enriched schema is the
union of the source columns and every distinct flattened key found across
the lookup records, except that the `apiKey` column is dropped when
`fileKey` is already a source column. -/
def claimedUnionMem (api_key file_key : String) (file_columns : List String)
    (records : List Jdict) (c : String) : Prop :=
  c ∈ file_columns ∨
    ((∃ item ∈ records, c ∈ dictKeys item) ∧ ¬ (c = api_key ∧ file_key ∈ file_columns))

/-- Spec-side membership of the amended C6: a source column, or the
non-empty stripped form of a flattened lookup key, where a raw key equal
to `apiKey` is skipped when `fileKey` is a source column. -/
def sanitizedUnionMem (api_key file_key : String) (file_columns : List String)
    (records : List Jdict) (c : String) : Prop :=
  c ∈ file_columns ∨
    ∃ item ∈ records, ∃ k ∈ dictKeys item,
      ¬ (k = api_key ∧ file_key ∈ file_columns) ∧ ¬ pyStrip k = "" ∧ pyStrip k = c

/-- C6 (amended): the schema computed by `call_external_api` +
`enrich_content` is the union of the source columns with the *sanitized*
(stripped, non-empty) flattened lookup keys, the raw `apiKey` key being
skipped when `fileKey` is a source column; and the column list is
duplicate-free, so it never holds a second copy of the join key. -/
theorem call_external_api_column_union (api_key file_key : String)
    (file_columns : List String) (records : List Jdict) :
    (∀ c, c ∈ all_columns_of file_columns
        (api_columns_of api_key file_key file_columns records)
      ↔ sanitizedUnionMem api_key file_key file_columns records c) ∧
    (file_columns.Nodup →
      (all_columns_of file_columns
        (api_columns_of api_key file_key file_columns records)).Nodup) := by
  constructor
  · intro c
    rw [mem_all_columns_iff, mem_api_columns_iff]
    simp only [sanitizedUnionMem, contributes]
    constructor
    · rintro (h | ⟨item, hitem, kv, hkv, h1, h2, h3⟩)
      · exact Or.inl h
      · exact Or.inr ⟨item, hitem, kv.1, List.mem_map_of_mem _ hkv, h1, h2, h3⟩
    · rintro (h | ⟨item, hitem, k, hk, h1, h2, h3⟩)
      · exact Or.inl h
      · simp only [dictKeys, List.mem_map] at hk
        obtain ⟨kv, hkv, rfl⟩ := hk
        exact Or.inr ⟨item, hitem, kv, hkv, h1, h2, h3⟩
  · exact nodup_all_columns _ _

/-- Witness for the amended C6 at a concrete record set. -/
theorem call_external_api_column_union_witness :
    ("name" ∈ all_columns_of ["id"]
        (api_columns_of "id" "id" ["id"]
          [[("id", JValue.jInt 1), (" name ", JValue.jStr "A")]])
      ↔ sanitizedUnionMem "id" "id" ["id"]
          [[("id", JValue.jInt 1), (" name ", JValue.jStr "A")]] "name") ∧
    (all_columns_of ["id"]
      (api_columns_of "id" "id" ["id"]
        [[("id", JValue.jInt 1), (" name ", JValue.jStr "A")]])).Nodup := by
  have h := call_external_api_column_union "id" "id" ["id"]
    [[("id", JValue.jInt 1), (" name ", JValue.jStr "A")]]
  exact ⟨h.1 "name", h.2 (by decide)⟩

/-- Counterexample to C6 as stated: with a lookup record carrying the key
`" name "` (whitespace around it), the code's schema holds the sanitized
name `"name"` and not the raw flattened key `" name "`, while the claimed
union holds `" name "` and not `"name"`. -/
theorem c6_union_counterexample :
    claimedUnionMem "id" "id" ["id"]
      [[("id", JValue.jInt 1), (" name ", JValue.jStr "A")]] " name " ∧
    ¬ " name " ∈ all_columns_of ["id"]
      (api_columns_of "id" "id" ["id"]
        [[("id", JValue.jInt 1), (" name ", JValue.jStr "A")]]) ∧
    "name" ∈ all_columns_of ["id"]
      (api_columns_of "id" "id" ["id"]
        [[("id", JValue.jInt 1), (" name ", JValue.jStr "A")]]) ∧
    ¬ claimedUnionMem "id" "id" ["id"]
      [[("id", JValue.jInt 1), (" name ", JValue.jStr "A")]] "name" := by
  unfold claimedUnionMem
  decide

/-- C10 (amended): every lookup-contributed schema column is the
non-empty stripped form of a record key — stripping it again is the
identity — and such a column stays null in every merged row whenever no
lookup record carries it as an exact raw key and it is not a source
column (the overlay probes raw record keys with the stripped name). -/
theorem api_columns_sanitized_and_unmatched_null
    (api_key file_key : String) (file_columns allCols : List String)
    (records : List Jdict) (lookup : List (String × Jdict)) (row : Jdict) (c : String)
    (hc : c ∈ api_columns_of api_key file_key file_columns records)
    (hlk : ∀ p ∈ lookup, p.2 ∈ records) :
    (¬ c = "" ∧ pyStrip c = c) ∧
    (¬ c ∈ file_columns → (∀ item ∈ records, ¬ c ∈ dictKeys item) → c ∈ allCols →
      dictGet (enrichRow allCols file_columns
          (api_columns_of api_key file_key file_columns records) file_key lookup row) c
        = some JValue.jNull) := by
  obtain ⟨item, hitem, kv, hkv, h1, h2, h3⟩ :=
    (mem_api_columns_iff api_key file_key c file_columns records).mp hc
  constructor
  · constructor
    · rw [← h3]
      exact h2
    · rw [← h3, pyStrip_idempotent]
  · intro hnf hnone hcall
    rw [dictGet_enrichRow _ _ _ _ _ _ c hcall]
    rcases hm : lookupMatch lookup file_key row with _ | apiRow
    · rw [expectedCell_none _ _ _ _ _ _ hm]
      simp [sourceCell, hnf]
    · have hmem : apiRow ∈ records := by
        unfold lookupMatch at hm
        rcases hfind : List.find?
            (fun p => p.1 = pyStr ((dictGet row file_key).getD (JValue.jStr ""))) lookup
          with _ | p
        · rw [hfind] at hm
          simp at hm
        · rw [hfind] at hm
          simp at hm
          rw [← hm]
          exact hlk p (List.mem_of_find?_eq_some hfind)
      have hn2 : dictGet apiRow c = none :=
        (dictGet_eq_none_iff _ _).mpr (hnone apiRow hmem)
      rw [expectedCell_some _ _ _ _ _ _ apiRow hm, if_pos hc, hn2]
      show some (sourceCell file_columns row c) = some JValue.jNull
      simp [sourceCell, hnf]

/-- Witness for the amended C10: the column `"name"` (stripped from the
raw key `" name "`) stays null even on a row that matches the record
holding `" name "`. -/
theorem api_columns_sanitized_witness :
    (¬ "name" = "" ∧ pyStrip "name" = "name") ∧
    dictGet (enrichRow ["id", "name"] ["id"]
        (api_columns_of "id" "id" ["id"]
          [[("id", JValue.jInt 1), (" name ", JValue.jStr "A")]])
        "id"
        [("1", [("id", JValue.jInt 1), (" name ", JValue.jStr "A")])]
        [("id", JValue.jInt 1)]) "name" = some JValue.jNull := by
  have h := api_columns_sanitized_and_unmatched_null "id" "id" ["id"] ["id", "name"]
    [[("id", JValue.jInt 1), (" name ", JValue.jStr "A")]]
    [("1", [("id", JValue.jInt 1), (" name ", JValue.jStr "A")])]
    [("id", JValue.jInt 1)] "name"
    (by decide) (by decide)
  exact ⟨h.1, h.2 (by decide) (by decide) (by decide)⟩

/-- Counterexample to C10 as stated: the key `" name "` differs from its
stripped form, yet the schema column `"name"` it contributes *is*
overlaid (with a value from another record that carries `"name"` raw),
so it is not null in every row. -/
theorem c10_overlay_counterexample :
    ¬ pyStrip " name " = " name " ∧
    pyStrip " name " = "name" ∧
    "name" ∈ api_columns_of "id" "id" ["id"]
      [[("id", JValue.jInt 1), (" name ", JValue.jStr "A")],
       [("id", JValue.jInt 2), ("name", JValue.jStr "B")]] ∧
    dictGet (enrichRow ["id", "name"] ["id"]
        (api_columns_of "id" "id" ["id"]
          [[("id", JValue.jInt 1), (" name ", JValue.jStr "A")],
           [("id", JValue.jInt 2), ("name", JValue.jStr "B")]])
        "id"
        [("1", [("id", JValue.jInt 1), (" name ", JValue.jStr "A")]),
         ("2", [("id", JValue.jInt 2), ("name", JValue.jStr "B")])]
        [("id", JValue.jInt 2)]) "name" = some (JValue.jStr "B") := by
  decide

/-- The dictionary returned by `FileService.get_preview_data`. -/
structure PreviewData where
  columns : List String
  rows : List Jdict
  row_count : Nat
  current_page : Nat
  page_size : Nat
  total_pages : Nat
deriving DecidableEq, Repr

/-- `FileService.get_preview_data(file, params)`: slice
`content.data[start_index:end_index]` with
`start_index = (page - 1) * page_size`, `end_index = start_index + page_size`,
and `total_pages = (row_count + page_size - 1) // page_size`.
The Python slice `l[a:b]` (for `0 ≤ a ≤ b`) is `drop a (take b l)`. -/
def get_preview_data (columns : List String) (data : List Jdict)
    (row_count page page_size : Nat) : PreviewData :=
  { columns := columns
    rows := List.drop ((page - 1) * page_size)
      (List.take ((page - 1) * page_size + page_size) data)
    row_count := row_count
    current_page := page
    page_size := page_size
    total_pages := (row_count + page_size - 1) / page_size }

/-- C7: for every stored row set and every `page ≥ 1`, `pageSize ≥ 1`,
`get_preview_data` returns the slice
`rows[(page-1)*pageSize : (page-1)*pageSize + pageSize]` and
`total_pages = ceil(row_count / page_size)`; an out-of-range page yields
an empty slice (never an error), and a page is never longer than
`page_size`. -/
theorem get_preview_data_pagination (columns : List String) (data : List Jdict)
    (row_count page page_size : Nat) (_hp : 1 ≤ page) (hs : 1 ≤ page_size) :
    (get_preview_data columns data row_count page page_size).rows
        = (data.drop ((page - 1) * page_size)).take page_size ∧
    (get_preview_data columns data row_count page page_size).total_pages
        = row_count ⌈/⌉ page_size ∧
    (data.length ≤ (page - 1) * page_size →
      (get_preview_data columns data row_count page page_size).rows = []) ∧
    (get_preview_data columns data row_count page page_size).rows.length ≤ page_size := by
  refine ⟨?_, ?_, ?_, ?_⟩
  · show List.drop ((page - 1) * page_size)
        (List.take ((page - 1) * page_size + page_size) data) = _
    rw [List.drop_take]
    congr 1
    omega
  · show (row_count + page_size - 1) / page_size = row_count ⌈/⌉ page_size
    rw [Nat.ceilDiv_eq_add_pred_div]
  · intro h
    show List.drop ((page - 1) * page_size)
        (List.take ((page - 1) * page_size + page_size) data) = []
    apply List.drop_eq_nil_of_le
    rw [List.length_take]
    omega
  · show (List.drop ((page - 1) * page_size)
        (List.take ((page - 1) * page_size + page_size) data)).length ≤ page_size
    rw [List.length_drop, List.length_take]
    omega

/-- Witness for C7 on the spec's example: 250 rows, page size 100 give 3
total pages; page 3 returns 50 rows, page 4 an empty slice. -/
theorem get_preview_data_pagination_witness :
    (get_preview_data ["id"] (List.replicate 250 [("id", JValue.jNull)])
        250 3 100).total_pages = 3 ∧
    (get_preview_data ["id"] (List.replicate 250 [("id", JValue.jNull)])
        250 3 100).rows.length = 50 ∧
    (get_preview_data ["id"] (List.replicate 250 [("id", JValue.jNull)])
        250 4 100).rows = [] := by
  have h3 := get_preview_data_pagination ["id"]
    (List.replicate 250 [("id", JValue.jNull)]) 250 3 100 (by decide) (by decide)
  have h4 := get_preview_data_pagination ["id"]
    (List.replicate 250 [("id", JValue.jNull)]) 250 4 100 (by decide) (by decide)
  refine ⟨?_, ?_, ?_⟩
  · rw [h3.2.1, Nat.ceilDiv_eq_add_pred_div]
  · rw [h3.1]
    simp only [List.length_take, List.length_drop, List.length_replicate]
    omega
  · exact h4.2.2.1 (by rw [List.length_replicate]; omega)

/-- `UploadStatus` (`transformer/base/enums.py`). -/
inductive UStatus where
  | pending
  | processing
  | completed
  | failed
deriving DecidableEq, Repr

/-- An `UploadedFile` row as `FileService.enrich_file` creates it. -/
structure EFile where
  id : Nat
  is_enriched : Bool
  parent_id : Option Nat
  status : UStatus
  columnsList : List String
deriving DecidableEq, Repr

/-- A `FileContent` row. -/
structure EContent where
  file_id : Nat
  rows : List Jdict
  row_count : Nat
deriving DecidableEq, Repr

/-- The persistent store `enrich_file` touches. -/
structure EDB where
  files : List EFile
  contents : List EContent
  next_id : Nat
deriving DecidableEq, Repr

/-- The fallible steps of `FileService.enrich_file`, in program order:
`enrich_content`, `create_csv_content`, `UploadedFile.objects.create`,
`file.save` (blob), `enriched_file.save()` (size), and
`FileContent.objects.create`. -/
inductive EStep where
  | computeRows
  | computeCsv
  | createRec
  | saveBlob
  | saveRec
  | createContent
deriving DecidableEq, Repr

inductive EResult where
  | ok : Nat → EResult
  | error : EStep → EResult
deriving DecidableEq, Repr

def stepOrder : List EStep :=
  [EStep.computeRows, EStep.computeCsv, EStep.createRec,
   EStep.saveBlob, EStep.saveRec, EStep.createContent]

/-- The first step the failure oracle makes raise. -/
def firstFail (fail : EStep → Bool) : Option EStep := stepOrder.find? fail

/-- Django `enriched_file.delete()` with the cascading delete of the
one-to-one `FileContent` (`on_delete=CASCADE`): pure state removal. -/
def deleteFile (db : EDB) (fid : Nat) : EDB :=
  { db with
    files := db.files.filter (fun f => f.id != fid)
    contents := db.contents.filter (fun c => c.file_id != fid) }

/-- `FileService.enrich_file`: enriched rows and CSV are computed in
memory first; then the new `UploadedFile` row is created
(`is_enriched=True, parent_file=file, status=Completed, columns`), the
blob saved, the row saved with the real size, and the `FileContent`
created with `row_count=len(enriched_data)`; any exception after row
creation runs `enriched_file.delete()` and re-raises the original
exception.  `fail` says which steps raise. -/
def enrich_file (db : EDB) (parent : Nat) (cols : List String)
    (rows : List Jdict) (fail : EStep → Bool) : EDB × EResult :=
  if fail EStep.computeRows then (db, EResult.error EStep.computeRows)
  else if fail EStep.computeCsv then (db, EResult.error EStep.computeCsv)
  else if fail EStep.createRec then (db, EResult.error EStep.createRec)
  else
    let fid := db.next_id
    let newRec : EFile := ⟨fid, true, some parent, UStatus.completed, cols⟩
    let db1 : EDB := { db with files := db.files ++ [newRec], next_id := db.next_id + 1 }
    if fail EStep.saveBlob then (deleteFile db1 fid, EResult.error EStep.saveBlob)
    else if fail EStep.saveRec then (deleteFile db1 fid, EResult.error EStep.saveRec)
    else if fail EStep.createContent then
      (deleteFile db1 fid, EResult.error EStep.createContent)
    else
      ({ db1 with contents := db1.contents ++ [⟨fid, rows, rows.length⟩] },
        EResult.ok fid)

/-- Every enriched FileRecord has its ContentRecord. -/
def noOrphanEnriched (db : EDB) : Prop :=
  ∀ f ∈ db.files, f.is_enriched = true → ∃ c ∈ db.contents, c.file_id = f.id

/-- Ids in the store are below the id counter. -/
def freshIds (db : EDB) : Prop :=
  (∀ f ∈ db.files, f.id < db.next_id) ∧ (∀ c ∈ db.contents, c.file_id < db.next_id)

theorem deleteFile_db1 (db : EDB) (r : EFile) (hr : r.id = db.next_id)
    (hfresh : freshIds db) :
    (deleteFile { db with files := db.files ++ [r], next_id := db.next_id + 1 }
        db.next_id).files = db.files ∧
    (deleteFile { db with files := db.files ++ [r], next_id := db.next_id + 1 }
        db.next_id).contents = db.contents := by
  unfold deleteFile
  constructor
  · simp only [List.filter_append]
    have h1 : List.filter (fun f => f.id != db.next_id) db.files = db.files :=
      List.filter_eq_self.mpr (fun f hf => by
        simp only [bne_iff_ne, ne_eq]
        exact Nat.ne_of_lt (hfresh.1 f hf))
    have h2 : List.filter (fun f => f.id != db.next_id) [r] = [] := by
      simp [hr]
    rw [h1, h2, List.append_nil]
  · simp only []
    exact List.filter_eq_self.mpr (fun c hc => by
      simp only [bne_iff_ne, ne_eq]
      exact Nat.ne_of_lt (hfresh.2 c hc))

theorem firstFail_none_iff (fail : EStep → Bool) :
    firstFail fail = none ↔ ∀ e, fail e = false := by
  unfold firstFail
  rw [List.find?_eq_none]
  constructor
  · intro h e
    have he : e ∈ stepOrder := by cases e <;> simp [stepOrder]
    simpa using h e he
  · intro h x _
    simp [h x]

theorem firstFail_computeRows (fail : EStep → Bool)
    (h : fail EStep.computeRows = true) :
    firstFail fail = some EStep.computeRows := by
  unfold firstFail stepOrder
  simp [List.find?_cons, h]

theorem firstFail_computeCsv (fail : EStep → Bool)
    (h1 : fail EStep.computeRows = false) (h2 : fail EStep.computeCsv = true) :
    firstFail fail = some EStep.computeCsv := by
  unfold firstFail stepOrder
  simp [List.find?_cons, h1, h2]

theorem enrich_file_run_eq (db : EDB) (parent : Nat) (cols : List String)
    (rows : List Jdict) (fail : EStep → Bool) :
    enrich_file db parent cols rows fail =
      match firstFail fail with
      | some EStep.computeRows => (db, EResult.error EStep.computeRows)
      | some EStep.computeCsv => (db, EResult.error EStep.computeCsv)
      | some EStep.createRec => (db, EResult.error EStep.createRec)
      | some e =>
          (deleteFile
            { db with
              files := db.files ++
                [⟨db.next_id, true, some parent, UStatus.completed, cols⟩]
              next_id := db.next_id + 1 } db.next_id,
            EResult.error e)
      | none =>
          ({ db with
              files := db.files ++
                [⟨db.next_id, true, some parent, UStatus.completed, cols⟩]
              contents := db.contents ++ [⟨db.next_id, rows, rows.length⟩]
              next_id := db.next_id + 1 },
            EResult.ok db.next_id) := by
  unfold enrich_file firstFail stepOrder
  by_cases h1 : fail EStep.computeRows <;>
    by_cases h2 : fail EStep.computeCsv <;>
      by_cases h3 : fail EStep.createRec <;>
        by_cases h4 : fail EStep.saveBlob <;>
          by_cases h5 : fail EStep.saveRec <;>
            by_cases h6 : fail EStep.createContent <;>
              simp [h1, h2, h3, h4, h5, h6, List.find?_cons]

/-- C2: `enrich_file` computes the enriched rows and CSV entirely in
memory before any persistent write (a compute failure leaves the store
untouched); on any failure the caller receives the original error of the
first failing step — the compensating delete is pure state removal and
never masks it — and the store's files and contents are exactly as
before the call; hence after the call no enriched FileRecord lacking a
ContentRecord exists; and on success the enriched FileRecord
(`is_enriched`, `parent_id = source`, `Completed`) and its ContentRecord
exist together. -/
theorem enrich_file_atomic (db : EDB) (parent : Nat) (cols : List String)
    (rows : List Jdict) (fail : EStep → Bool)
    (hfresh : freshIds db) (hinv : noOrphanEnriched db) :
    (∀ e, (enrich_file db parent cols rows fail).2 = EResult.error e →
      firstFail fail = some e ∧
      (enrich_file db parent cols rows fail).1.files = db.files ∧
      (enrich_file db parent cols rows fail).1.contents = db.contents) ∧
    ((fail EStep.computeRows = true ∨ fail EStep.computeCsv = true) →
      (enrich_file db parent cols rows fail).1 = db) ∧
    noOrphanEnriched (enrich_file db parent cols rows fail).1 ∧
    (∀ fid, (enrich_file db parent cols rows fail).2 = EResult.ok fid →
      (∃ f ∈ (enrich_file db parent cols rows fail).1.files,
        f.id = fid ∧ f.is_enriched = true ∧ f.parent_id = some parent ∧
        f.status = UStatus.completed ∧ f.columnsList = cols) ∧
      (∃ c ∈ (enrich_file db parent cols rows fail).1.contents,
        c.file_id = fid ∧ c.rows = rows ∧ c.row_count = rows.length)) := by
  have hrun := enrich_file_run_eq db parent cols rows fail
  have hdel := deleteFile_db1 db
    ⟨db.next_id, true, some parent, UStatus.completed, cols⟩ rfl hfresh
  rcases hff : firstFail fail with _ | e
  case none =>
    rw [hff] at hrun
    have hflags := (firstFail_none_iff fail).mp hff
    refine ⟨?_, ?_, ?_, ?_⟩
    · intro e he
      rw [hrun] at he
      simp at he
    · rintro (hc | hc) <;> [skip; skip] <;>
        exact absurd hc (by simp [hflags])
    · rw [hrun]
      intro f hf hfe
      simp only [List.mem_append, List.mem_singleton] at hf
      rcases hf with hf | rfl
      · obtain ⟨c, hc, hcid⟩ := hinv f hf hfe
        exact ⟨c, by simp [List.mem_append, hc], hcid⟩
      · exact ⟨⟨db.next_id, rows, rows.length⟩, by simp, rfl⟩
    · intro fid hok
      rw [hrun] at hok
      simp only [EResult.ok.injEq] at hok
      subst hok
      constructor
      · refine ⟨⟨db.next_id, true, some parent, UStatus.completed, cols⟩,
          ?_, rfl, rfl, rfl, rfl, rfl⟩
        rw [hrun]
        simp
      · refine ⟨⟨db.next_id, rows, rows.length⟩, ?_, rfl, rfl, rfl⟩
        rw [hrun]
        simp
  case some =>
    cases e
    case computeRows =>
      rw [hff] at hrun
      refine ⟨?_, ?_, ?_, ?_⟩
      · intro e' he
        rw [hrun] at he
        simp only [EResult.error.injEq] at he
        subst he
        exact ⟨rfl, by rw [hrun], by rw [hrun]⟩
      · intro _
        rw [hrun]
      · rw [hrun]
        exact hinv
      · intro fid hok
        rw [hrun] at hok
        simp at hok
    case computeCsv =>
      rw [hff] at hrun
      refine ⟨?_, ?_, ?_, ?_⟩
      · intro e' he
        rw [hrun] at he
        simp only [EResult.error.injEq] at he
        subst he
        exact ⟨rfl, by rw [hrun], by rw [hrun]⟩
      · intro _
        rw [hrun]
      · rw [hrun]
        exact hinv
      · intro fid hok
        rw [hrun] at hok
        simp at hok
    case createRec =>
      rw [hff] at hrun
      refine ⟨?_, ?_, ?_, ?_⟩
      · intro e' he
        rw [hrun] at he
        simp only [EResult.error.injEq] at he
        subst he
        exact ⟨rfl, by rw [hrun], by rw [hrun]⟩
      · rintro (hc | hc)
        · rw [firstFail_computeRows fail hc] at hff
          simp at hff
        · by_cases hcr : fail EStep.computeRows = true
          · rw [firstFail_computeRows fail hcr] at hff
            simp at hff
          · rw [firstFail_computeCsv fail (by simpa using hcr) hc] at hff
            simp at hff
      · rw [hrun]
        exact hinv
      · intro fid hok
        rw [hrun] at hok
        simp at hok
    case saveBlob =>
      rw [hff] at hrun
      refine ⟨?_, ?_, ?_, ?_⟩
      · intro e' he
        rw [hrun] at he
        simp only [EResult.error.injEq] at he
        subst he
        exact ⟨rfl, by rw [hrun]; exact hdel.1, by rw [hrun]; exact hdel.2⟩
      · rintro (hc | hc)
        · rw [firstFail_computeRows fail hc] at hff
          simp at hff
        · by_cases hcr : fail EStep.computeRows = true
          · rw [firstFail_computeRows fail hcr] at hff
            simp at hff
          · rw [firstFail_computeCsv fail (by simpa using hcr) hc] at hff
            simp at hff
      · unfold noOrphanEnriched
        rw [show (enrich_file db parent cols rows fail).1.files = db.files from
            by rw [hrun]; exact hdel.1,
          show (enrich_file db parent cols rows fail).1.contents = db.contents from
            by rw [hrun]; exact hdel.2]
        exact hinv
      · intro fid hok
        rw [hrun] at hok
        simp at hok
    case saveRec =>
      rw [hff] at hrun
      refine ⟨?_, ?_, ?_, ?_⟩
      · intro e' he
        rw [hrun] at he
        simp only [EResult.error.injEq] at he
        subst he
        exact ⟨rfl, by rw [hrun]; exact hdel.1, by rw [hrun]; exact hdel.2⟩
      · rintro (hc | hc)
        · rw [firstFail_computeRows fail hc] at hff
          simp at hff
        · by_cases hcr : fail EStep.computeRows = true
          · rw [firstFail_computeRows fail hcr] at hff
            simp at hff
          · rw [firstFail_computeCsv fail (by simpa using hcr) hc] at hff
            simp at hff
      · unfold noOrphanEnriched
        rw [show (enrich_file db parent cols rows fail).1.files = db.files from
            by rw [hrun]; exact hdel.1,
          show (enrich_file db parent cols rows fail).1.contents = db.contents from
            by rw [hrun]; exact hdel.2]
        exact hinv
      · intro fid hok
        rw [hrun] at hok
        simp at hok
    case createContent =>
      rw [hff] at hrun
      refine ⟨?_, ?_, ?_, ?_⟩
      · intro e' he
        rw [hrun] at he
        simp only [EResult.error.injEq] at he
        subst he
        exact ⟨rfl, by rw [hrun]; exact hdel.1, by rw [hrun]; exact hdel.2⟩
      · rintro (hc | hc)
        · rw [firstFail_computeRows fail hc] at hff
          simp at hff
        · by_cases hcr : fail EStep.computeRows = true
          · rw [firstFail_computeRows fail hcr] at hff
            simp at hff
          · rw [firstFail_computeCsv fail (by simpa using hcr) hc] at hff
            simp at hff
      · unfold noOrphanEnriched
        rw [show (enrich_file db parent cols rows fail).1.files = db.files from
            by rw [hrun]; exact hdel.1,
          show (enrich_file db parent cols rows fail).1.contents = db.contents from
            by rw [hrun]; exact hdel.2]
        exact hinv
      · intro fid hok
        rw [hrun] at hok
        simp at hok

/-- Witness for C2: a failure at the blob-save step (after the
FileRecord was created) surfaces as that original error and leaves the
store with no file and no content. -/
theorem enrich_file_atomic_witness :
    firstFail (fun e => e == EStep.saveBlob) = some EStep.saveBlob ∧
    (enrich_file ⟨[], [], 0⟩ 0 ["a"] [] (fun e => e == EStep.saveBlob)).1.files = [] ∧
    (enrich_file ⟨[], [], 0⟩ 0 ["a"] [] (fun e => e == EStep.saveBlob)).1.contents = [] := by
  have h := enrich_file_atomic ⟨[], [], 0⟩ 0 ["a"] [] (fun e => e == EStep.saveBlob)
    (by
      unfold freshIds
      exact ⟨fun f hf => absurd hf (List.not_mem_nil f),
        fun c hc => absurd hc (List.not_mem_nil c)⟩)
    (fun f hf => absurd hf (List.not_mem_nil f))
  have he := h.1 EStep.saveBlob (by decide)
  exact ⟨he.1, he.2.1, he.2.2⟩

/-- An `UploadedFile` row as the parsing task manipulates it. -/
structure FileRow where
  status : UStatus
  columnsList : Option (List String)
deriving DecidableEq, Repr

/-- A `FileContent` row created by the parsing task. -/
structure ContentRow where
  rows : List Jdict
  row_count : Nat
deriving DecidableEq, Repr

/-- State of one file id across the task's executions: the FileRecord
(absent when the row does not exist), its ContentRecord, the Status
Store entry `(status, progress)` for the id, and Celery's
`request.retries` counter. -/
structure ExecState where
  fileRec : Option FileRow
  content : Option ContentRow
  statusStore : Option (UStatus × Nat)
  retries : Nat
deriving DecidableEq, Repr

/-- One attempt's parse outcome: the CSV read/parse yields columns and
rows, or raises (decode error, storage read error, malformed rows). -/
inductive ParseOutcome where
  | ok : List String → List Jdict → ParseOutcome
  | err
deriving DecidableEq, Repr

/-- What one task execution does at its boundary: return a value, or be
rescheduled after the given delay.  The translation produces no third
case — every exception is caught inside the task. -/
inductive AttemptResult where
  | returned : Bool → AttemptResult
  | retryScheduled : Nat → AttemptResult
deriving DecidableEq, Repr

def maxRetries : Nat := 3

def defaultRetryDelay : Nat := 60

/-- One execution of `process_file_content` (celery.py), under Celery's
`Task.retry` semantics for `max_retries=3, default_retry_delay=60`:
`self.retry(exc=e)` reschedules after `default_retry_delay` while
`request.retries < max_retries` and raises `MaxRetriesExceededError`
otherwise, which the task catches, writing Status Store `{Failed, 0}`
and returning `False`.  Within an attempt the Status Store is written
`{Processing, progress}` first; only the attempt's final value is kept
here (the store is last-write-wins).  The task's
`except UploadedFile.DoesNotExist` handler (log, return `False`) is
attached to the inner `try`, while `objects.get` runs outside it, so a
missing row raises into the outer `except Exception`, which retries. -/
def runAttempt (s : ExecState) (out : ParseOutcome) : ExecState × AttemptResult :=
  match s.fileRec with
  | none =>
      if s.retries < maxRetries then
        ({ s with retries := s.retries + 1 },
          AttemptResult.retryScheduled defaultRetryDelay)
      else
        ({ s with statusStore := some (UStatus.failed, 0) },
          AttemptResult.returned false)
  | some f =>
      match out with
      | ParseOutcome.ok cols rows =>
          ({ s with
              fileRec :=
                some { f with
                  status := UStatus.completed
                  columnsList := some cols }
              content := some ⟨rows, rows.length⟩
              statusStore := some (UStatus.completed, 100) },
            AttemptResult.returned true)
      | ParseOutcome.err =>
          if s.retries < maxRetries then
            ({ s with
                fileRec := some { f with status := UStatus.failed }
                statusStore := some (UStatus.failed, 0)
                retries := s.retries + 1 },
              AttemptResult.retryScheduled defaultRetryDelay)
          else
            ({ s with
                fileRec := some { f with status := UStatus.failed }
                statusStore := some (UStatus.failed, 0) },
              AttemptResult.returned false)

/-- Drive the task to completion: run attempts, following every
scheduled retry; accumulate the execution count and the retry delays.
Any `fuel ≥ maxRetries + 1` reaches a return. -/
def runLoop : Nat → ExecState → (Nat → ParseOutcome) → Nat → List Nat →
    ExecState × Option Bool × Nat × List Nat
  | 0, s, _, execs, delays => (s, none, execs, delays)
  | fuel + 1, s, outs, execs, delays =>
      match runAttempt s (outs execs) with
      | (s1, AttemptResult.returned b) => (s1, some b, execs + 1, delays)
      | (s1, AttemptResult.retryScheduled d) =>
          runLoop fuel s1 outs (execs + 1) (delays ++ [d])

/-- C1: a permanently-failing parse runs the initial execution plus
exactly 3 retry attempts (4 executions, each retry rescheduled with the
fixed delay 60), ends with the terminal Status Store record
`{Failed, 0}`, and returns `False` — no exception crosses the executor
boundary and no further attempt happens. -/
theorem process_file_content_retry_bound (f : FileRow)
    (content0 : Option ContentRow) (store0 : Option (UStatus × Nat))
    (outs : Nat → ParseOutcome) (ho : ∀ i, outs i = ParseOutcome.err)
    (fuel : Nat) (hfuel : 4 ≤ fuel) :
    runLoop fuel ⟨some f, content0, store0, 0⟩ outs 0 [] =
      (⟨some { f with status := UStatus.failed }, content0,
          some (UStatus.failed, 0), 3⟩,
        some false, 4, [60, 60, 60]) := by
  obtain ⟨k, rfl⟩ := Nat.exists_eq_add_of_le hfuel
  rw [Nat.add_comm]
  simp [runLoop, runAttempt, ho, maxRetries, defaultRetryDelay]

/-- Witness for C1 at a concrete pending record and the all-failing
outcome sequence. -/
theorem process_file_content_retry_bound_witness :
    runLoop 10 ⟨some ⟨UStatus.pending, none⟩, none, none, 0⟩
        (fun _ => ParseOutcome.err) 0 [] =
      (⟨some ⟨UStatus.failed, none⟩, none, some (UStatus.failed, 0), 3⟩,
        some false, 4, [60, 60, 60]) :=
  process_file_content_retry_bound ⟨UStatus.pending, none⟩ none none
    (fun _ => ParseOutcome.err) (fun _ => rfl) 10 (by decide)

/-- C4 evaluated at its failing input (code bug): invoking the task on a
file id with no FileRecord *does* retry — three reschedulings with
delay 60 — and *does* mutate the Status Store, writing `{Failed, 0}` at
exhaustion.  The `except UploadedFile.DoesNotExist` handler that would
log and end without retrying is dead code: `objects.get` runs outside
the inner `try` it guards. -/
theorem process_file_content_notfound_retries :
    runLoop 10 ⟨none, none, none, 0⟩ (fun _ => ParseOutcome.err) 0 [] =
      (⟨none, none, some (UStatus.failed, 0), 3⟩, some false, 4, [60, 60, 60]) ∧
    ¬ (runLoop 10 ⟨none, none, none, 0⟩ (fun _ => ParseOutcome.err) 0
        []).1.statusStore = none := by
  decide

/-- Counterexample to C5: a parse failure on the first attempt sets the
FileRecord to Failed; the retry then succeeds and sets it to Completed —
a FileRecord once Failed does change status under the executor's
retries. -/
theorem c5_status_regression_counterexample :
    (runAttempt ⟨some ⟨UStatus.pending, none⟩, none, none, 0⟩ ParseOutcome.err).1.fileRec
        = some ⟨UStatus.failed, none⟩ ∧
    (runAttempt
        (runAttempt ⟨some ⟨UStatus.pending, none⟩, none, none, 0⟩ ParseOutcome.err).1
        (ParseOutcome.ok ["a"] [])).1.fileRec
        = some ⟨UStatus.completed, some ["a"]⟩ := by
  decide

/-- C5 (amended): in a task run, the FileRecord status is never set to
Processing (Processing is only ever written to the Status Store), and an
attempt moves it only to Completed or Failed (or leaves it);
rescheduling only ever happens with the record Failed (or missing), so a
record that reaches Completed ends the run and never changes afterwards
— but a Failed status set by a failed attempt is overwritten by the next
retry, becoming Completed when that retry succeeds. -/
theorem filerecord_status_transitions (s : ExecState) (out : ParseOutcome)
    (f : FileRow) (hf : s.fileRec = some f) :
    (∃ f2, (runAttempt s out).1.fileRec = some f2 ∧
      ¬ f2.status = UStatus.processing ∧
      (f2.status = f.status ∨ f2.status = UStatus.completed ∨
        f2.status = UStatus.failed)) ∧
    (∀ s1 d, runAttempt s out = (s1, AttemptResult.retryScheduled d) →
      ∃ f2, s1.fileRec = some f2 ∧ f2.status = UStatus.failed) := by
  obtain ⟨fr, ct, ss, rt⟩ := s
  simp only at hf
  subst hf
  cases out
  case ok cols rows =>
    constructor
    · refine ⟨{ f with status := UStatus.completed, columnsList := some cols },
        ?_, by simp, Or.inr (Or.inl rfl)⟩
      simp [runAttempt]
    · intro s1 d h
      simp [runAttempt] at h
  case err =>
    by_cases hr : rt < maxRetries
    · constructor
      · refine ⟨{ f with status := UStatus.failed },
          ?_, by simp, Or.inr (Or.inr rfl)⟩
        simp [runAttempt, hr]
      · intro s1 d h
        simp [runAttempt, hr] at h
        obtain ⟨h1, h2⟩ := h
        subst h1
        exact ⟨{ f with status := UStatus.failed }, rfl, rfl⟩
    · constructor
      · refine ⟨{ f with status := UStatus.failed },
          ?_, by simp, Or.inr (Or.inr rfl)⟩
        simp [runAttempt, hr]
      · intro s1 d h
        simp [runAttempt, hr] at h

/-- Witness for the amended C5 at a concrete pending record and a
failing parse. -/
theorem filerecord_status_transitions_witness :
    (∃ f2, (runAttempt ⟨some ⟨UStatus.pending, none⟩, none, none, 0⟩
        ParseOutcome.err).1.fileRec = some f2 ∧
      ¬ f2.status = UStatus.processing ∧
      (f2.status = (⟨UStatus.pending, none⟩ : FileRow).status ∨
        f2.status = UStatus.completed ∨ f2.status = UStatus.failed)) ∧
    (∀ s1 d, runAttempt ⟨some ⟨UStatus.pending, none⟩, none, none, 0⟩
        ParseOutcome.err = (s1, AttemptResult.retryScheduled d) →
      ∃ f2, s1.fileRec = some f2 ∧ f2.status = UStatus.failed) :=
  filerecord_status_transitions ⟨some ⟨UStatus.pending, none⟩, none, none, 0⟩
    ParseOutcome.err ⟨UStatus.pending, none⟩ rfl

/-- C8: every ContentRecord is created with `row_count` equal to the
length of its rows — the record the parsing task creates
(`row_count=len(rows)`) and the record enrichment creates
(`row_count=len(enriched_data)`) — so the invariant holds from the
moment a ContentRecord exists. -/
theorem content_row_count_invariant :
    (∀ (s : ExecState) (out : ParseOutcome) (c : ContentRow),
      (runAttempt s out).1.content = some c →
      s.content = some c ∨ c.row_count = c.rows.length) ∧
    (∀ (db : EDB) (parent : Nat) (cols : List String) (rows : List Jdict)
        (fail : EStep → Bool) (c : EContent),
      c ∈ (enrich_file db parent cols rows fail).1.contents →
      c ∈ db.contents ∨ c.row_count = c.rows.length) := by
  constructor
  · intro s out c h
    obtain ⟨fr, ct, ss, rt⟩ := s
    rcases fr with _ | f
    · by_cases hr : rt < maxRetries
      · simp [runAttempt, hr] at h
        exact Or.inl h
      · simp [runAttempt, hr] at h
        exact Or.inl h
    · cases out
      case ok cols rows =>
        right
        simp [runAttempt] at h
        rw [← h]
      case err =>
        by_cases hr : rt < maxRetries
        · simp [runAttempt, hr] at h
          exact Or.inl h
        · simp [runAttempt, hr] at h
          exact Or.inl h
  · intro db parent cols rows fail c h
    have hrun := enrich_file_run_eq db parent cols rows fail
    rcases hff : firstFail fail with _ | e
    · rw [hff] at hrun
      rw [hrun] at h
      simp only [List.mem_append, List.mem_singleton] at h
      rcases h with h | rfl
      · exact Or.inl h
      · exact Or.inr rfl
    · cases e
      case computeRows =>
        rw [hff] at hrun
        rw [hrun] at h
        exact Or.inl h
      case computeCsv =>
        rw [hff] at hrun
        rw [hrun] at h
        exact Or.inl h
      case createRec =>
        rw [hff] at hrun
        rw [hrun] at h
        exact Or.inl h
      case saveBlob =>
        rw [hff] at hrun
        rw [hrun] at h
        unfold deleteFile at h
        exact Or.inl (List.mem_of_mem_filter h)
      case saveRec =>
        rw [hff] at hrun
        rw [hrun] at h
        unfold deleteFile at h
        exact Or.inl (List.mem_of_mem_filter h)
      case createContent =>
        rw [hff] at hrun
        rw [hrun] at h
        unfold deleteFile at h
        exact Or.inl (List.mem_of_mem_filter h)

/-- Witness for C8: the task's record for one parsed row, and
enrichment's record for one enriched row, both satisfy the invariant. -/
theorem content_row_count_invariant_witness :
    ((⟨some ⟨UStatus.pending, none⟩, none, none, 0⟩ : ExecState).content
        = some (⟨[[("a", JValue.jInt 1)]], 1⟩ : ContentRow) ∨
      (⟨[[("a", JValue.jInt 1)]], 1⟩ : ContentRow).row_count
        = (⟨[[("a", JValue.jInt 1)]], 1⟩ : ContentRow).rows.length) ∧
    ((⟨0, [[("a", JValue.jInt 1)]], 1⟩ : EContent) ∈ ([] : List EContent) ∨
      (⟨0, [[("a", JValue.jInt 1)]], 1⟩ : EContent).row_count
        = (⟨0, [[("a", JValue.jInt 1)]], 1⟩ : EContent).rows.length) := by
  constructor
  · exact content_row_count_invariant.1 ⟨some ⟨UStatus.pending, none⟩, none, none, 0⟩
      (ParseOutcome.ok ["a"] [[("a", JValue.jInt 1)]]) ⟨[[("a", JValue.jInt 1)]], 1⟩
      (by decide)
  · exact content_row_count_invariant.2 ⟨[], [], 0⟩ 0 ["a"] [[("a", JValue.jInt 1)]]
      (fun _ => false) ⟨0, [[("a", JValue.jInt 1)]], 1⟩ (by decide)
